import Mathlib

/-!
Verification development for `ssync.py`, a simple file synchronizer.

The embedding mirrors the source structure:
* text utilities model the Python string primitives the script relies on
  (`str.strip`, `str.split` with `maxsplit`, `str.split(' ', 1)`, file line
  iteration, `str.startswith('#')`);
* `nonempty_reader` / `colReaderAux` model the generators `nonempty_reader`
  and `col_reader`;
* `compareManifests` / `main_compare` / `diffLines` model `main_compare`;
* `main_sync` models `main_sync`; fallible code (Python `KeyError` from
  `line['filename']`, `ValueError` from tuple unpacking) is modelled with
  `Option`, `none` meaning the run aborts with an uncaught exception.
-/

set_option autoImplicit false

namespace Ssync

/-- ASCII whitespace as recognized by Python's `str.strip` / `str.split`. -/
def isWS (c : Char) : Bool :=
  c = ' ' || c = '\t' || c = '\n' || c = '\r' || c = '\x0b' || c = '\x0c'

/-- Characters of `str.strip()`: whitespace removed from both ends. -/
def stripChars (l : List Char) : List Char :=
  ((l.dropWhile isWS).reverse.dropWhile isWS).reverse

/-- Python `str.strip()`. -/
def pyStrip (s : String) : String := String.mk (stripChars s.toList)

/-- Tokenization loop of Python `str.split(maxsplit=n)` once leading
whitespace has been dropped: with budget `0` the rest is kept verbatim,
otherwise one token is taken and the following whitespace run consumed. -/
def wsTokenize : Nat → List Char → List (List Char)
  | _, [] => []
  | 0, c :: rest => [c :: rest]
  | Nat.succ k, c :: rest =>
    ((c :: rest).takeWhile (fun ch => !isWS ch)) ::
      wsTokenize k (((c :: rest).dropWhile (fun ch => !isWS ch)).dropWhile isWS)

/-- Python `str.split(maxsplit=n)` on a character list: runs of whitespace
separate tokens, at most `n` splits are performed, and once the budget is
exhausted the rest of the string (after the separating run) is kept verbatim. -/
def wsSplitMax (n : Nat) (cs : List Char) : List (List Char) :=
  wsTokenize n (cs.dropWhile isWS)

/-- Python `s.split(maxsplit=n)`. -/
def pySplitMax (s : String) (n : Nat) : List String :=
  (wsSplitMax n s.toList).map String.mk

/-- Python `s.split()` (unlimited whitespace split). -/
def pySplit (s : String) : List String :=
  (wsSplitMax s.toList.length s.toList).map String.mk

/-- Helper for `s.split(sep, 1)`: cut at the first occurrence of `sep`. -/
def splitOnceChar (sep : Char) : List Char → List Char × Option (List Char)
  | [] => ([], none)
  | c :: cs =>
    if c = sep then ([], some cs)
    else
      let p := splitOnceChar sep cs
      (c :: p.1, p.2)

/-- Python `s.split(' ', 1)`: one or two fields, remainder kept verbatim. -/
def splitSpace1 (s : String) : List String :=
  match splitOnceChar ' ' s.toList with
  | (a, none) => [String.mk a]
  | (a, some b) => [String.mk a, String.mk b]

/-- Line iteration over a text stream (Python `for line in fileobj`), with the
terminating newline of each line already removed (the source strips every
line immediately, so the terminator never matters). -/
def splitLinesChars : List Char → List Char → List (List Char)
  | [], acc => if acc.isEmpty then [] else [acc.reverse]
  | c :: cs, acc =>
    if c = '\n' then acc.reverse :: splitLinesChars cs []
    else splitLinesChars cs (c :: acc)

/-- The lines of a text stream. -/
def splitLines (s : String) : List String :=
  (splitLinesChars s.toList []).map String.mk

/-- Python `s.startswith('#')`. -/
def startsHash (s : String) : Bool :=
  match s.toList with
  | [] => false
  | c :: _ => c = '#'

/-- `nonempty_reader`: strip every line and skip the ones that are empty. -/
def nonempty_reader : List String → List String
  | [] => []
  | l :: ls =>
    if pyStrip l = "" then nonempty_reader ls else pyStrip l :: nonempty_reader ls

/-- A parsed data line: the Python dict `dict(zip(columns, fields))`,
a finite map from column name to field text. -/
abbrev Entry := List (String × String)

/-- Python dict insertion `d[k] = v`: replace in place or append. -/
def insertE : Entry → String → String → Entry
  | [], k, v => [(k, v)]
  | kv :: rest, k, v =>
    if kv.1 = k then (kv.1, v) :: rest else kv :: insertE rest k v

/-- Python `dict(pairs)`: later pairs win. -/
def dictOfPairs (l : List (String × String)) : Entry :=
  l.foldl (fun m kv => insertE m kv.1 kv.2) []

/-- Python `d.get(k)` on a parsed line. -/
def lookupE : Entry → String → Option String
  | [], _ => none
  | kv :: rest, k => if kv.1 = k then some kv.2 else lookupE rest k

/-- The loop body of `col_reader`, over already stripped non-empty lines:
a `#` line replaces the active column list (`line.split()[1:]`), any other
line becomes `dict(zip(columns, line.split(maxsplit=len(columns))))`. -/
def colReaderAux : List String → List String → List Entry
  | _, [] => []
  | cols, l :: ls =>
    if startsHash l then colReaderAux ((pySplit l).drop 1) ls
    else dictOfPairs (cols.zip (pySplitMax l cols.length)) :: colReaderAux cols ls

/-- `col_reader(fileobj)` applied to the lines of a text stream. -/
def parseEntries (text : String) : List Entry :=
  colReaderAux [] (nonempty_reader (splitLines text))

/-- Project every parsed line to `(line['filename'], line.get('md5', None))`
as `main_compare` does; `none` models the `KeyError` raised when a line has
no `filename` field. -/
def entriesToPairs : List Entry → Option (List (String × Option String))
  | [] => some []
  | e :: es =>
    match lookupE e "filename" with
    | none => none
    | some fn => (entriesToPairs es).map (fun rest => (fn, lookupE e "md5") :: rest)

/-- Parse a manifest text into its `(path, checksum)` entries, in stream
order; `none` models an uncaught `KeyError`. -/
def readManifestText (text : String) : Option (List (String × Option String)) :=
  entriesToPairs (parseEntries text)

/-- One output line of `main_analyze`: `"md5 path"` or just `"path"`. -/
def manifestLine (md5 : Bool) (pc : String × Option String) : String :=
  if md5 then pc.2.getD "" ++ " " ++ pc.1 else pc.1

/-- The lines `main_analyze` prints for a given listing: a header declaring
the columns, then one data line per entry. -/
def manifestLines (md5 : Bool) (m : List (String × Option String)) : List String :=
  (if md5 then "# md5 filename" else "# filename") :: m.map (manifestLine md5)

/-- Join lines with newlines, one terminator per line (Python `print`). -/
def unlines (ls : List String) : String :=
  ls.foldr (fun l acc => l ++ "\n" ++ acc) ""

/-- The manifest text `main_analyze` emits for a listing. -/
def serializeManifest (md5 : Bool) (m : List (String × Option String)) : String :=
  unlines (manifestLines md5 m)

/-- The Python dict `origin_files : path → checksum-or-None`, as an ordered
association list with unique keys (dict insertion order). -/
abbrev AList := List (String × Option String)

/-- Dict membership / item access: `p in d`, `d[p]`. -/
def lookupA : AList → String → Option (Option String)
  | [], _ => none
  | kv :: rest, k => if kv.1 = k then some kv.2 else lookupA rest k

/-- Dict assignment `d[k] = v`. -/
def insertA : AList → String → Option String → AList
  | [], k, v => [(k, v)]
  | kv :: rest, k, v =>
    if kv.1 = k then (kv.1, v) :: rest else kv :: insertA rest k v

/-- Dict deletion `del d[k]`. -/
def eraseA : AList → String → AList
  | [], _ => []
  | kv :: rest, k => if kv.1 = k then rest else kv :: eraseA rest k

/-- The keys of the dict. -/
def keysA (m : AList) : List String := m.map Prod.fst

/-- Building `origin_files` from the parsed origin entries:
`origin_files[filename] = md5`, later entries winning. -/
def buildDict (l : List (String × Option String)) : AList :=
  l.foldl (fun m pc => insertA m pc.1 pc.2) []

/-- Python `set.add` on a duplicate-free list model of a set. -/
def setAdd (s : List String) (x : String) : List String :=
  if x ∈ s then s else s ++ [x]

/-- The remote loop of `main_compare`: state is `origin_files`,
`remote_files`, `modified_files`; each remote entry either lands in
`remote_files` (unknown path) or is matched against `origin_files`,
flagged modified on checksum mismatch, and removed from the dict. -/
def processRemote :
    AList → List String → List String → List (String × Option String) →
      AList × List String × List String
  | ofiles, rf, mf, [] => (ofiles, rf, mf)
  | ofiles, rf, mf, pc :: rest =>
    match lookupA ofiles pc.1 with
    | none => processRemote ofiles (setAdd rf pc.1) mf rest
    | some c0 =>
      processRemote (eraseA ofiles pc.1) rf
        (if c0 ≠ pc.2 then setAdd mf pc.1 else mf) rest

/-- The classification `main_compare` computes. -/
structure CompareResult where
  originOnly : List String
  remoteOnly : List String
  modified : List String
deriving DecidableEq

/-- The core of `main_compare` on parsed `(path, checksum)` sequences. -/
def compareManifests (o r : List (String × Option String)) : CompareResult :=
  { originOnly := keysA (processRemote (buildDict o) [] [] r).1
    remoteOnly := (processRemote (buildDict o) [] [] r).2.1
    modified := (processRemote (buildDict o) [] [] r).2.2 }

/-- `main_compare` from the two manifest texts; `none` models the uncaught
`KeyError` when some parsed line lacks a `filename` field. -/
def main_compare (originText remoteText : String) : Option CompareResult :=
  match readManifestText originText, readManifestText remoteText with
  | some o, some r => some (compareManifests o r)
  | _, _ => none

/-- The diff lines `main_compare` prints: the `O` group, a blank line when
that group was non-empty, the `R` group, a blank line when non-empty,
then the `M` group. -/
def diffLines (res : CompareResult) : List String :=
  res.originOnly.map (fun fn => "O " ++ fn)
    ++ (if res.originOnly.isEmpty then [] else [""])
    ++ res.remoteOnly.map (fun fn => "R " ++ fn)
    ++ (if res.remoteOnly.isEmpty then [] else [""])
    ++ res.modified.map (fun fn => "M " ++ fn)

/-- A sync action as printed by `copyfile` / `removefile`. -/
inductive SyncAction where
  | copy (src dst : String)
  | remove (fn : String)
deriving DecidableEq

/-- Leading `/` test for `os.path.join`. -/
def startsSlash (s : String) : Bool :=
  match s.toList with
  | [] => false
  | c :: _ => c = '/'

/-- Trailing `/` test for `os.path.join`. -/
def endsSlash (s : String) : Bool :=
  match s.toList.getLast? with
  | some c => c = '/'
  | none => false

/-- `os.path.join(a, b)` for POSIX paths. -/
def pathJoin (a b : String) : String :=
  if startsSlash b then b
  else if a = "" then b
  else if endsSlash a then a ++ b
  else a ++ "/" ++ b

/-- `main_sync`: read the diff lines, strip and skip blanks, unpack
`(status, filename) = line.split(' ', 1)` (`none` models the `ValueError`
when there is no space), and emit one action per recognized status;
unrecognized statuses fall through all branches and are skipped. -/
def main_sync (og rm : String)
    (origin_remove remote_copy modified_download : Bool) :
    List String → Option (List SyncAction)
  | [] => some []
  | l :: ls =>
    if pyStrip l = "" then
      main_sync og rm origin_remove remote_copy modified_download ls
    else
      match splitSpace1 (pyStrip l) with
      | [status, filename] =>
        (main_sync og rm origin_remove remote_copy modified_download ls).map
          (fun rest =>
            (if status = "O" then
              [if origin_remove then SyncAction.remove (pathJoin og filename)
               else SyncAction.copy (pathJoin og filename) (pathJoin rm filename)]
            else if status = "R" then
              [if remote_copy then SyncAction.copy (pathJoin rm filename) (pathJoin og filename)
               else SyncAction.remove (pathJoin rm filename)]
            else if status = "M" then
              [if modified_download then SyncAction.copy (pathJoin rm filename) (pathJoin og filename)
               else SyncAction.copy (pathJoin og filename) (pathJoin rm filename)]
            else []) ++ rest)
      | _ => none

/-- The kind of a diff record. -/
inductive DKind where
  | o | r | m
deriving DecidableEq

/-- The status letter of a diff record as written by `main_compare`. -/
def statusStr : DKind → String
  | .o => "O"
  | .r => "R"
  | .m => "M"

/-- The decision table of §4.3 of the specification, stated independently of
the code so that `main_sync` can be proved to refine it. -/
def planTable (og rm : String)
    (origin_remove remote_copy modified_download : Bool) :
    DKind × String → SyncAction
  | (.o, fn) =>
    if origin_remove then .remove (pathJoin og fn)
    else .copy (pathJoin og fn) (pathJoin rm fn)
  | (.r, fn) =>
    if remote_copy then .copy (pathJoin rm fn) (pathJoin og fn)
    else .remove (pathJoin rm fn)
  | (.m, fn) =>
    if modified_download then .copy (pathJoin rm fn) (pathJoin og fn)
    else .copy (pathJoin og fn) (pathJoin rm fn)

/-- A whitespace-free character list (a well-formed token). -/
abbrev NWS (l : List Char) : Prop := ∀ c ∈ l, isWS c = false

/-- A well-formed path or checksum token: non-empty and whitespace-free. -/
abbrev wfToken (s : String) : Prop := s ≠ "" ∧ NWS s.toList

/-- A manifest entry that survives the text round trip: the path is a
well-formed token; with checksums (`md5 = true`) the checksum is present,
a well-formed token, and not header-like; without checksums the checksum
is absent and the path itself is not header-like. -/
abbrev wfEntry (md5 : Bool) (pc : String × Option String) : Prop :=
  if md5 then
    wfToken pc.1 ∧ pc.2 ≠ none ∧ wfToken (pc.2.getD "") ∧
      startsHash (pc.2.getD "") = false
  else
    wfToken pc.1 ∧ pc.2 = none ∧ startsHash pc.1 = false

/-- The last character of `s`, if any, is not whitespace (so stripping a
line that ends with `s` leaves `s` intact). -/
def noTrailWS (s : String) : Bool :=
  match s.toList.getLast? with
  | some ch => !isWS ch
  | none => true

-- Sanity checks against the Python behavior (concrete evaluation).
example : pySplit "# md5 filename" = ["#", "md5", "filename"] := by decide
example : pySplitMax "abc123 my dir/file.txt" 2 = ["abc123", "my", "dir/file.txt"] := by decide
example : parseEntries "# md5 filename\nabc123 dir/file.txt\n" =
    [[("md5", "abc123"), ("filename", "dir/file.txt")]] := by decide
example : parseEntries "# md5 filename\nabc123 my dir/file.txt\n" =
    [[("md5", "abc123"), ("filename", "my")]] := by decide
example : readManifestText "x" = none := by decide
example : readManifestText "# filename\nx\n" = some [("x", none)] := by decide
example :
    compareManifests [("a", some "h1"), ("b", some "h2")] [("b", some "h2"), ("c", some "h3")] =
      { originOnly := ["a"], remoteOnly := ["c"], modified := [] } := by decide
example :
    compareManifests [("a", some "h1")] [("a", some "h2"), ("a", some "h3")] =
      { originOnly := [], remoteOnly := ["a"], modified := ["a"] } := by decide
example : main_sync "o" "r" false false false ["X foo"] = some [] := by decide
example : main_sync "o" "r" false false false ["Ofoo"] = none := by decide
example : main_sync "o" "r" false false false ["O a", "", "M b"] =
    some [SyncAction.copy "o/a" "r/a", SyncAction.copy "o/b" "r/b"] := by decide

/-! ### String bridging lemmas -/

@[simp] theorem toList_mk (l : List Char) : (String.mk l).toList = l := rfl

@[simp] theorem mk_toList (s : String) : String.mk s.toList = s := rfl

@[simp] theorem toList_append (s t : String) :
    (s ++ t).toList = s.toList ++ t.toList := rfl

theorem toList_eq_nil_iff (s : String) : s.toList = [] ↔ s = "" := by
  constructor
  · intro h
    have : String.mk s.toList = String.mk [] := by rw [h]
    simpa using this
  · intro h
    rw [h]
    rfl

/-! ### Association list (Python dict) lemmas -/

@[simp] theorem lookupA_nil (p : String) : lookupA [] p = none := rfl

@[simp] theorem lookupA_cons (kv : String × Option String) (rest : AList) (p : String) :
    lookupA (kv :: rest) p = if kv.1 = p then some kv.2 else lookupA rest p := rfl

@[simp] theorem keysA_nil : keysA [] = [] := rfl

@[simp] theorem keysA_cons (kv : String × Option String) (rest : AList) :
    keysA (kv :: rest) = kv.1 :: keysA rest := rfl

@[simp] theorem eraseA_nil (q : String) : eraseA [] q = [] := rfl

@[simp] theorem eraseA_cons (kv : String × Option String) (rest : AList) (q : String) :
    eraseA (kv :: rest) q = if kv.1 = q then rest else kv :: eraseA rest q := rfl

@[simp] theorem insertA_nil (k : String) (v : Option String) :
    insertA [] k v = [(k, v)] := rfl

@[simp] theorem insertA_cons (kv : String × Option String) (rest : AList)
    (k : String) (v : Option String) :
    insertA (kv :: rest) k v =
      if kv.1 = k then (kv.1, v) :: rest else kv :: insertA rest k v := rfl

theorem lookupA_eq_none_iff (m : AList) (p : String) :
    lookupA m p = none ↔ p ∉ keysA m := by
  induction m with
  | nil => simp
  | cons kv rest ih =>
    by_cases h : kv.1 = p
    · subst h
      simp
    · simp [h, ih, Ne.symm h]

theorem mem_keysA_iff (m : AList) (p : String) :
    p ∈ keysA m ↔ ∃ v, lookupA m p = some v := by
  constructor
  · intro h
    cases hv : lookupA m p with
    | none => exact absurd h ((lookupA_eq_none_iff m p).mp hv)
    | some v => exact ⟨v, rfl⟩
  · rintro ⟨v, hv⟩
    by_contra hp
    rw [← lookupA_eq_none_iff] at hp
    rw [hp] at hv
    cases hv

theorem lookupA_eraseA_ne (m : AList) (p q : String) (h : p ≠ q) :
    lookupA (eraseA m q) p = lookupA m p := by
  induction m with
  | nil => rfl
  | cons kv rest ih =>
    by_cases hq : kv.1 = q
    · simp [hq, Ne.symm h]
    · simp [hq, ih]

theorem mem_keysA_eraseA (m : AList) (q p : String) (hm : (keysA m).Nodup) :
    p ∈ keysA (eraseA m q) ↔ p ∈ keysA m ∧ p ≠ q := by
  induction m with
  | nil => simp
  | cons kv rest ih =>
    rw [keysA_cons, List.nodup_cons] at hm
    obtain ⟨h1, h2⟩ := hm
    by_cases hq : kv.1 = q
    · subst hq
      simp only [eraseA_cons, if_pos rfl, keysA_cons, List.mem_cons]
      constructor
      · intro hp
        refine ⟨Or.inr hp, ?_⟩
        intro he
        exact h1 (he ▸ hp)
      · rintro ⟨he | hp, hne⟩
        · exact absurd he hne
        · exact hp
    · simp only [eraseA_cons, if_neg hq, keysA_cons, List.mem_cons, ih h2]
      constructor
      · rintro (he | ⟨hp, hne⟩)
        · exact ⟨Or.inl he, by rw [he]; exact hq⟩
        · exact ⟨Or.inr hp, hne⟩
      · rintro ⟨he | hp, hne⟩
        · exact Or.inl he
        · exact Or.inr ⟨hp, hne⟩

theorem nodup_keysA_eraseA (m : AList) (q : String) (hm : (keysA m).Nodup) :
    (keysA (eraseA m q)).Nodup := by
  induction m with
  | nil => simp
  | cons kv rest ih =>
    rw [keysA_cons, List.nodup_cons] at hm
    obtain ⟨h1, h2⟩ := hm
    by_cases hq : kv.1 = q
    · simpa [hq] using h2
    · simp only [eraseA_cons, if_neg hq, keysA_cons, List.nodup_cons]
      refine ⟨?_, ih h2⟩
      intro hmem
      exact h1 ((mem_keysA_eraseA rest q kv.1 h2).mp hmem).1

theorem mem_setAdd (s : List String) (x p : String) :
    p ∈ setAdd s x ↔ p = x ∨ p ∈ s := by
  by_cases h : x ∈ s
  · rw [setAdd, if_pos h]
    constructor
    · exact Or.inr
    · rintro (rfl | hp)
      · exact h
      · exact hp
  · rw [setAdd, if_neg h]
    simp [or_comm]

theorem nodup_setAdd (s : List String) (x : String) (h : s.Nodup) :
    (setAdd s x).Nodup := by
  by_cases hx : x ∈ s
  · rw [setAdd, if_pos hx]
    exact h
  · rw [setAdd, if_neg hx]
    refine List.Nodup.append h (List.nodup_singleton x) ?_
    intro a ha hb
    rw [List.mem_singleton] at hb
    exact hx (hb ▸ ha)

theorem insertA_cons_eq (kv : String × Option String) (rest : AList)
    (v : Option String) : insertA (kv :: rest) kv.1 v = (kv.1, v) :: rest := by
  rw [insertA_cons, if_pos rfl]

theorem mem_keysA_insertA (m : AList) (k : String) (v : Option String) (p : String) :
    p ∈ keysA (insertA m k v) ↔ p ∈ keysA m ∨ p = k := by
  induction m with
  | nil => simp
  | cons kv rest ih =>
    by_cases hk : kv.1 = k
    · subst hk
      rw [insertA_cons_eq, keysA_cons, keysA_cons]
      simp only [List.mem_cons]
      tauto
    · simp only [insertA_cons, if_neg hk, keysA_cons, List.mem_cons, ih]
      tauto

theorem nodup_keysA_insertA (m : AList) (k : String) (v : Option String)
    (hm : (keysA m).Nodup) : (keysA (insertA m k v)).Nodup := by
  induction m with
  | nil => simp
  | cons kv rest ih =>
    rw [keysA_cons, List.nodup_cons] at hm
    obtain ⟨h1, h2⟩ := hm
    by_cases hk : kv.1 = k
    · subst hk
      rw [insertA_cons_eq, keysA_cons, List.nodup_cons]
      exact ⟨h1, h2⟩
    · simp only [insertA_cons, if_neg hk, keysA_cons, List.nodup_cons]
      refine ⟨?_, ih h2⟩
      intro hmem
      rcases (mem_keysA_insertA rest k v kv.1).mp hmem with hp | he
      · exact h1 hp
      · exact hk he

theorem insertA_of_not_mem (m : AList) (k : String) (v : Option String)
    (h : k ∉ keysA m) : insertA m k v = m ++ [(k, v)] := by
  induction m with
  | nil => rfl
  | cons kv rest ih =>
    have hk : kv.1 ≠ k := fun he => h (by rw [keysA_cons, he]; exact List.mem_cons_self _ _)
    have h' : k ∉ keysA rest := fun hm => h (by rw [keysA_cons]; exact List.mem_cons_of_mem _ hm)
    rw [insertA_cons, if_neg hk, ih h', List.cons_append]

theorem lookupA_append_right (a b : AList) (k : String) (h : lookupA a k = none) :
    lookupA (a ++ b) k = lookupA b k := by
  induction a with
  | nil => rfl
  | cons kv rest ih =>
    by_cases hk : kv.1 = k
    · rw [lookupA_cons, if_pos hk] at h
      cases h
    · rw [lookupA_cons, if_neg hk] at h
      rw [List.cons_append, lookupA_cons, if_neg hk]
      exact ih h

theorem lookupA_eq_some_iff (m : AList) (hm : (keysA m).Nodup) (p : String)
    (c : Option String) : lookupA m p = some c ↔ (p, c) ∈ m := by
  induction m with
  | nil => simp
  | cons kv rest ih =>
    rw [keysA_cons, List.nodup_cons] at hm
    obtain ⟨h1, h2⟩ := hm
    by_cases hk : kv.1 = p
    · subst hk
      rw [lookupA_cons, if_pos rfl]
      constructor
      · intro h
        have hv : kv.2 = c := by injection h
        rw [← hv]
        exact List.mem_cons_self _ _
      · intro h
        rcases List.mem_cons.mp h with he | hr
        · have := congrArg Prod.snd he
          simp only [] at this
          rw [← this]
        · exact absurd (List.mem_map_of_mem Prod.fst hr) h1
    · rw [lookupA_cons, if_neg hk, ih h2]
      constructor
      · exact List.mem_cons_of_mem _
      · intro h
        rcases List.mem_cons.mp h with he | hr
        · exact absurd (congrArg Prod.fst he).symm hk
        · exact hr

/-! ### buildDict lemmas -/

theorem foldl_insertA_append (l : List (String × Option String)) :
    ∀ acc : AList, (keysA l).Nodup →
      (∀ k, k ∈ keysA l → lookupA acc k = none) →
      l.foldl (fun m pc => insertA m pc.1 pc.2) acc = acc ++ l := by
  induction l with
  | nil =>
    intro acc _ _
    simp
  | cons pc rest ih =>
    intro acc hnd hk
    rw [keysA_cons, List.nodup_cons] at hnd
    obtain ⟨hhd, hnd'⟩ := hnd
    have hpc : lookupA acc pc.1 = none := hk pc.1 (by rw [keysA_cons]; exact List.mem_cons_self _ _)
    have hnotin : pc.1 ∉ keysA acc := (lookupA_eq_none_iff acc pc.1).mp hpc
    have hacc : ∀ k, k ∈ keysA rest → lookupA (acc ++ [pc]) k = none := by
      intro k hkr
      have hne : pc.1 ≠ k := fun he => hhd (he ▸ hkr)
      rw [lookupA_append_right acc [pc] k (hk k (by rw [keysA_cons]; exact List.mem_cons_of_mem _ hkr))]
      rw [lookupA_cons, if_neg hne]
      rfl
    rw [List.foldl_cons, insertA_of_not_mem acc pc.1 pc.2 hnotin, ih (acc ++ [pc]) hnd' hacc]
    simp

theorem buildDict_eq_self (l : List (String × Option String))
    (h : (keysA l).Nodup) : buildDict l = l := by
  have := foldl_insertA_append l [] h (fun k _ => rfl)
  simpa [buildDict] using this

theorem foldl_insertA_nodup (l : List (String × Option String)) :
    ∀ acc : AList, (keysA acc).Nodup →
      (keysA (l.foldl (fun m pc => insertA m pc.1 pc.2) acc)).Nodup := by
  induction l with
  | nil =>
    intro acc h
    simpa using h
  | cons pc rest ih =>
    intro acc h
    rw [List.foldl_cons]
    exact ih _ (nodup_keysA_insertA acc pc.1 pc.2 h)

theorem keysA_buildDict_nodup (l : List (String × Option String)) :
    (keysA (buildDict l)).Nodup :=
  foldl_insertA_nodup l [] (by simp)

theorem buildDict_idem (l : List (String × Option String)) :
    buildDict (buildDict l) = buildDict l :=
  buildDict_eq_self (buildDict l) (keysA_buildDict_nodup l)

/-! ### processRemote characterizations -/

@[simp] theorem processRemote_nil (ofiles : AList) (rf mf : List String) :
    processRemote ofiles rf mf [] = (ofiles, rf, mf) := rfl

theorem processRemote_cons (ofiles : AList) (rf mf : List String)
    (pc : String × Option String) (rest : List (String × Option String)) :
    processRemote ofiles rf mf (pc :: rest) =
      match lookupA ofiles pc.1 with
      | none => processRemote ofiles (setAdd rf pc.1) mf rest
      | some c0 =>
        processRemote (eraseA ofiles pc.1) rf
          (if c0 ≠ pc.2 then setAdd mf pc.1 else mf) rest := rfl

theorem processRemote_originOnly (r : List (String × Option String)) :
    ∀ (ofiles : AList) (rf mf : List String), (keysA ofiles).Nodup → ∀ p : String,
      (p ∈ keysA (processRemote ofiles rf mf r).1 ↔
        p ∈ keysA ofiles ∧ p ∉ keysA r) := by
  induction r with
  | nil =>
    intro ofiles rf mf _ p
    simp
  | cons pc rest ih =>
    intro ofiles rf mf hnd p
    cases hl : lookupA ofiles pc.1 with
    | none =>
      have hpc : pc.1 ∉ keysA ofiles := (lookupA_eq_none_iff _ _).mp hl
      simp only [processRemote_cons, hl]
      rw [ih ofiles _ mf hnd p]
      simp only [keysA_cons, List.mem_cons, not_or]
      constructor
      · rintro ⟨h1, h2⟩
        exact ⟨h1, fun he => hpc (he ▸ h1), h2⟩
      · rintro ⟨h1, _, h3⟩
        exact ⟨h1, h3⟩
    | some c0 =>
      simp only [processRemote_cons, hl]
      rw [ih _ rf _ (nodup_keysA_eraseA ofiles pc.1 hnd) p]
      rw [mem_keysA_eraseA ofiles pc.1 p hnd]
      simp only [keysA_cons, List.mem_cons, not_or]
      tauto

theorem processRemote_remoteOnly (r : List (String × Option String)) :
    ∀ (ofiles : AList) (rf mf : List String), (keysA ofiles).Nodup →
      (keysA r).Nodup → ∀ p : String,
      (p ∈ (processRemote ofiles rf mf r).2.1 ↔
        p ∈ rf ∨ (p ∈ keysA r ∧ p ∉ keysA ofiles)) := by
  induction r with
  | nil =>
    intro ofiles rf mf _ _ p
    simp
  | cons pc rest ih =>
    intro ofiles rf mf hnd hr p
    rw [keysA_cons, List.nodup_cons] at hr
    obtain ⟨hr1, hr2⟩ := hr
    cases hl : lookupA ofiles pc.1 with
    | none =>
      have hpc : pc.1 ∉ keysA ofiles := (lookupA_eq_none_iff _ _).mp hl
      simp only [processRemote_cons, hl]
      rw [ih ofiles _ mf hnd hr2 p, mem_setAdd]
      simp only [keysA_cons, List.mem_cons]
      constructor
      · rintro ((rfl | hp) | ⟨h1, h2⟩)
        · exact Or.inr ⟨Or.inl rfl, hpc⟩
        · exact Or.inl hp
        · exact Or.inr ⟨Or.inr h1, h2⟩
      · rintro (hp | ⟨rfl | h1, h2⟩)
        · exact Or.inl (Or.inr hp)
        · exact Or.inl (Or.inl rfl)
        · exact Or.inr ⟨h1, h2⟩
    | some c0 =>
      have hpc : pc.1 ∈ keysA ofiles := (mem_keysA_iff _ _).mpr ⟨c0, hl⟩
      simp only [processRemote_cons, hl]
      rw [ih _ rf _ (nodup_keysA_eraseA ofiles pc.1 hnd) hr2 p]
      simp only [keysA_cons, List.mem_cons]
      constructor
      · rintro (hp | ⟨h1, h2⟩)
        · exact Or.inl hp
        · rw [mem_keysA_eraseA ofiles pc.1 p hnd] at h2
          by_cases hpe : p = pc.1
          · exact absurd (hpe ▸ h1) hr1
          · exact Or.inr ⟨Or.inr h1, fun hk => h2 ⟨hk, hpe⟩⟩
      · rintro (hp | ⟨rfl | h1, h2⟩)
        · exact Or.inl hp
        · exact absurd hpc h2
        · refine Or.inr ⟨h1, ?_⟩
          rw [mem_keysA_eraseA ofiles pc.1 p hnd]
          rintro ⟨hk, _⟩
          exact h2 hk

theorem processRemote_modified (r : List (String × Option String)) :
    ∀ (ofiles : AList) (rf mf : List String), (keysA ofiles).Nodup →
      (keysA r).Nodup → ∀ p : String,
      (p ∈ (processRemote ofiles rf mf r).2.2 ↔
        p ∈ mf ∨ ∃ c, (p, c) ∈ r ∧ ∃ c0, lookupA ofiles p = some c0 ∧ c0 ≠ c) := by
  induction r with
  | nil =>
    intro ofiles rf mf _ _ p
    simp
  | cons pc rest ih =>
    intro ofiles rf mf hnd hr p
    rw [keysA_cons, List.nodup_cons] at hr
    obtain ⟨hr1, hr2⟩ := hr
    cases hl : lookupA ofiles pc.1 with
    | none =>
      simp only [processRemote_cons, hl]
      rw [ih ofiles _ mf hnd hr2 p]
      constructor
      · rintro (hp | ⟨c, hc, hs⟩)
        · exact Or.inl hp
        · exact Or.inr ⟨c, List.mem_cons_of_mem _ hc, hs⟩
      · rintro (hp | ⟨c, hc, c0, hc0, hne⟩)
        · exact Or.inl hp
        · rcases List.mem_cons.mp hc with he | hcr
          · have hp1 : p = pc.1 := congrArg Prod.fst he
            rw [hp1, hl] at hc0
            cases hc0
          · exact Or.inr ⟨c, hcr, c0, hc0, hne⟩
    | some c0 =>
      simp only [processRemote_cons, hl]
      rw [ih _ rf _ (nodup_keysA_eraseA ofiles pc.1 hnd) hr2 p]
      by_cases hpe : p = pc.1
      · subst hpe
        have herase : lookupA (eraseA ofiles pc.1) pc.1 = none := by
          rw [lookupA_eq_none_iff]
          intro hmem
          exact ((mem_keysA_eraseA ofiles pc.1 pc.1 hnd).mp hmem).2 rfl
        constructor
        · rintro (hmf | ⟨c, hc, c1, hc1, hne1⟩)
          · by_cases hcc : c0 ≠ pc.2
            · rw [if_pos hcc] at hmf
              rcases (mem_setAdd mf pc.1 pc.1).mp hmf with _ | hp
              · refine Or.inr ⟨pc.2, ?_, c0, hl, hcc⟩
                have hpc2 : (pc.1, pc.2) = pc := rfl
                rw [hpc2]
                exact List.mem_cons_self _ _
              · exact Or.inl hp
            · rw [if_neg hcc] at hmf
              exact Or.inl hmf
          · rw [herase] at hc1
            cases hc1
        · rintro (hmf | ⟨c, hc, c1, hc1, hne1⟩)
          · by_cases hcc : c0 ≠ pc.2
            · rw [if_pos hcc]
              exact Or.inl ((mem_setAdd mf pc.1 pc.1).mpr (Or.inr hmf))
            · rw [if_neg hcc]
              exact Or.inl hmf
          · rcases List.mem_cons.mp hc with he | hcr
            · have hc2 : c = pc.2 := congrArg Prod.snd he
              have hcc0 : some c1 = some c0 := by rw [← hc1, ← hl]
              have hc10 : c1 = c0 := by injection hcc0
              have hcc : c0 ≠ pc.2 := by
                rw [← hc10, ← hc2]
                exact hne1
              rw [if_pos hcc]
              exact Or.inl ((mem_setAdd mf pc.1 pc.1).mpr (Or.inl rfl))
            · exact absurd (List.mem_map_of_mem Prod.fst hcr) hr1
      · have herase : lookupA (eraseA ofiles pc.1) p = lookupA ofiles p :=
          lookupA_eraseA_ne ofiles p pc.1 hpe
        rw [herase]
        have hmf : p ∈ (if c0 ≠ pc.2 then setAdd mf pc.1 else mf) ↔ p ∈ mf := by
          by_cases hcc : c0 ≠ pc.2
          · rw [if_pos hcc, mem_setAdd]
            constructor
            · rintro (he | hp)
              · exact absurd he hpe
              · exact hp
            · exact Or.inr
          · rw [if_neg hcc]
        rw [hmf]
        constructor
        · rintro (hp | ⟨c, hc, hs⟩)
          · exact Or.inl hp
          · exact Or.inr ⟨c, List.mem_cons_of_mem _ hc, hs⟩
        · rintro (hp | ⟨c, hc, hs⟩)
          · exact Or.inl hp
          · rcases List.mem_cons.mp hc with he | hcr
            · exact absurd (congrArg Prod.fst he) hpe
            · exact Or.inr ⟨c, hcr, hs⟩

theorem processRemote_nodup (r : List (String × Option String)) :
    ∀ (ofiles : AList) (rf mf : List String), (keysA ofiles).Nodup →
      rf.Nodup → mf.Nodup →
      ((keysA (processRemote ofiles rf mf r).1).Nodup ∧
        (processRemote ofiles rf mf r).2.1.Nodup ∧
        (processRemote ofiles rf mf r).2.2.Nodup) := by
  induction r with
  | nil =>
    intro ofiles rf mf h1 h2 h3
    exact ⟨h1, h2, h3⟩
  | cons pc rest ih =>
    intro ofiles rf mf h1 h2 h3
    cases hl : lookupA ofiles pc.1 with
    | none =>
      simp only [processRemote_cons, hl]
      exact ih _ _ _ h1 (nodup_setAdd rf pc.1 h2) h3
    | some c0 =>
      simp only [processRemote_cons, hl]
      refine ih _ _ _ (nodup_keysA_eraseA _ _ h1) h2 ?_
      by_cases hcc : c0 ≠ pc.2
      · rw [if_pos hcc]
        exact nodup_setAdd mf pc.1 h3
      · rw [if_neg hcc]
        exact h3

/-! ### compareManifests characterizations -/

theorem compare_originOnly_mem (o r : List (String × Option String)) (p : String) :
    p ∈ (compareManifests o r).originOnly ↔
      p ∈ keysA (buildDict o) ∧ p ∉ keysA r :=
  processRemote_originOnly r (buildDict o) [] [] (keysA_buildDict_nodup o) p

theorem compare_remoteOnly_mem (o r : List (String × Option String))
    (hr : (keysA r).Nodup) (p : String) :
    p ∈ (compareManifests o r).remoteOnly ↔
      p ∈ keysA r ∧ p ∉ keysA (buildDict o) := by
  have h := processRemote_remoteOnly r (buildDict o) [] []
    (keysA_buildDict_nodup o) hr p
  simpa using h

theorem compare_modified_mem (o r : List (String × Option String))
    (hr : (keysA r).Nodup) (p : String) :
    p ∈ (compareManifests o r).modified ↔
      ∃ c, (p, c) ∈ r ∧ ∃ c0, lookupA (buildDict o) p = some c0 ∧ c0 ≠ c := by
  have h := processRemote_modified r (buildDict o) [] []
    (keysA_buildDict_nodup o) hr p
  simpa using h

theorem compare_modified_mem_nodup (o r : List (String × Option String))
    (ho : (keysA o).Nodup) (hr : (keysA r).Nodup) (p : String) :
    p ∈ (compareManifests o r).modified ↔
      p ∈ keysA o ∧ p ∈ keysA r ∧ lookupA o p ≠ lookupA r p := by
  rw [compare_modified_mem o r hr p, buildDict_eq_self o ho]
  constructor
  · rintro ⟨c, hc, c0, hc0, hne⟩
    have hrl : lookupA r p = some c := (lookupA_eq_some_iff r hr p c).mpr hc
    refine ⟨(mem_keysA_iff o p).mpr ⟨c0, hc0⟩, (mem_keysA_iff r p).mpr ⟨c, hrl⟩, ?_⟩
    rw [hc0, hrl]
    intro he
    exact hne (by injection he)
  · rintro ⟨h1, h2, h3⟩
    obtain ⟨c0, hc0⟩ := (mem_keysA_iff o p).mp h1
    obtain ⟨c, hc⟩ := (mem_keysA_iff r p).mp h2
    refine ⟨c, (lookupA_eq_some_iff r hr p c).mp hc, c0, hc0, ?_⟩
    intro he
    apply h3
    rw [hc0, hc, he]

theorem compare_disjoint (o r : List (String × Option String))
    (hr : (keysA r).Nodup) :
    (∀ p, ¬(p ∈ (compareManifests o r).originOnly ∧
        p ∈ (compareManifests o r).remoteOnly)) ∧
    (∀ p, ¬(p ∈ (compareManifests o r).originOnly ∧
        p ∈ (compareManifests o r).modified)) ∧
    (∀ p, ¬(p ∈ (compareManifests o r).remoteOnly ∧
        p ∈ (compareManifests o r).modified)) := by
  refine ⟨?_, ?_, ?_⟩
  · rintro p ⟨h1, h2⟩
    rw [compare_originOnly_mem] at h1
    rw [compare_remoteOnly_mem o r hr] at h2
    exact h1.2 h2.1
  · rintro p ⟨h1, h2⟩
    rw [compare_originOnly_mem] at h1
    rw [compare_modified_mem o r hr] at h2
    obtain ⟨c, hc, _⟩ := h2
    exact h1.2 (List.mem_map_of_mem Prod.fst hc)
  · rintro p ⟨h1, h2⟩
    rw [compare_remoteOnly_mem o r hr] at h1
    rw [compare_modified_mem o r hr] at h2
    obtain ⟨c, hc, c0, hc0, _⟩ := h2
    exact h1.2 ((mem_keysA_iff _ p).mpr ⟨c0, hc0⟩)

/-- C1: for manifests `O` and `R` (duplicate-free path lists), `compare`
classifies every path of `keys O ∪ keys R` into exactly one of unchanged
(no record), origin-only, remote-only, modified: origin-only is exactly
`keys O − keys R`, remote-only exactly `keys R − keys O`, modified exactly
the shared paths with differing checksums; the three sets are pairwise
disjoint; moreover `diff(O,O)` is empty, `diff(∅,R)` is exactly the
remote-only records over `keys R`, and `diff(O,∅)` exactly the origin-only
records over `keys O`. -/
theorem claim1_compare_classification (o r : List (String × Option String))
    (ho : (keysA o).Nodup) (hr : (keysA r).Nodup) :
    (∀ p, p ∈ (compareManifests o r).originOnly ↔ p ∈ keysA o ∧ p ∉ keysA r) ∧
    (∀ p, p ∈ (compareManifests o r).remoteOnly ↔ p ∈ keysA r ∧ p ∉ keysA o) ∧
    (∀ p, p ∈ (compareManifests o r).modified ↔
      p ∈ keysA o ∧ p ∈ keysA r ∧ lookupA o p ≠ lookupA r p) ∧
    (∀ p, ¬(p ∈ (compareManifests o r).originOnly ∧
        p ∈ (compareManifests o r).remoteOnly)) ∧
    (∀ p, ¬(p ∈ (compareManifests o r).originOnly ∧
        p ∈ (compareManifests o r).modified)) ∧
    (∀ p, ¬(p ∈ (compareManifests o r).remoteOnly ∧
        p ∈ (compareManifests o r).modified)) ∧
    ((compareManifests o o).originOnly = [] ∧
      (compareManifests o o).remoteOnly = [] ∧
      (compareManifests o o).modified = []) ∧
    ((compareManifests [] r).originOnly = [] ∧
      (compareManifests [] r).modified = [] ∧
      ∀ p, p ∈ (compareManifests [] r).remoteOnly ↔ p ∈ keysA r) ∧
    ((compareManifests o []).remoteOnly = [] ∧
      (compareManifests o []).modified = [] ∧
      ∀ p, p ∈ (compareManifests o []).originOnly ↔ p ∈ keysA o) := by
  have hbo : buildDict o = o := buildDict_eq_self o ho
  refine ⟨?_, ?_, ?_, (compare_disjoint o r hr).1, (compare_disjoint o r hr).2.1,
    (compare_disjoint o r hr).2.2, ⟨?_, ?_, ?_⟩, ⟨?_, ?_, ?_⟩, ⟨?_, ?_, ?_⟩⟩
  · intro p
    rw [compare_originOnly_mem, hbo]
  · intro p
    rw [compare_remoteOnly_mem o r hr, hbo]
  · intro p
    exact compare_modified_mem_nodup o r ho hr p
  · rw [List.eq_nil_iff_forall_not_mem]
    intro p hp
    rw [compare_originOnly_mem, hbo] at hp
    exact hp.2 hp.1
  · rw [List.eq_nil_iff_forall_not_mem]
    intro p hp
    rw [compare_remoteOnly_mem o o ho, hbo] at hp
    exact hp.2 hp.1
  · rw [List.eq_nil_iff_forall_not_mem]
    intro p hp
    rw [compare_modified_mem_nodup o o ho ho] at hp
    exact hp.2.2 rfl
  · rw [List.eq_nil_iff_forall_not_mem]
    intro p hp
    rw [compare_originOnly_mem] at hp
    exact absurd hp.1 (List.not_mem_nil p)
  · rw [List.eq_nil_iff_forall_not_mem]
    intro p hp
    rw [compare_modified_mem ([] : List (String × Option String)) r hr] at hp
    obtain ⟨c, _, c0, hc0, _⟩ := hp
    exact Option.noConfusion hc0
  · intro p
    rw [compare_remoteOnly_mem ([] : List (String × Option String)) r hr]
    constructor
    · exact fun h => h.1
    · exact fun h => ⟨h, List.not_mem_nil p⟩
  · rfl
  · rfl
  · intro p
    rw [compare_originOnly_mem o ([] : List (String × Option String)) p, hbo]
    constructor
    · exact fun h => h.1
    · exact fun h => ⟨h, List.not_mem_nil p⟩

/-- Witness for C1: the concrete manifests `O = {a ↦ h1, b ↦ h2}` and
`R = {b ↦ h2, c ↦ h3}` satisfy the duplicate-freedom hypotheses, and the
classification instance for path `a` follows by applying the theorem. -/
theorem claim1_witness :
    (keysA [("a", some "h1"), ("b", some "h2")]).Nodup ∧
    (keysA [("b", some "h2"), ("c", some "h3")]).Nodup ∧
    ("a" ∈ (compareManifests [("a", some "h1"), ("b", some "h2")]
        [("b", some "h2"), ("c", some "h3")]).originOnly ↔
      "a" ∈ keysA [("a", some "h1"), ("b", some "h2")] ∧
      "a" ∉ keysA [("b", some "h2"), ("c", some "h3")]) :=
  ⟨by decide, by decide,
    (claim1_compare_classification [("a", some "h1"), ("b", some "h2")]
      [("b", some "h2"), ("c", some "h3")] (by decide) (by decide)).1 "a"⟩

/-- C3 counterexample: with the duplicated remote listing
`[a ↦ h2, a ↦ h3]` against origin `[a ↦ h1]`, path `a` is classified both
remote-only and modified, refuting the claim that every path lands in at
most one output set even for repeated remote paths. -/
theorem claim3_counterexample :
    "a" ∈ (compareManifests [("a", some "h1")]
        [("a", some "h2"), ("a", some "h3")]).remoteOnly ∧
    "a" ∈ (compareManifests [("a", some "h1")]
        [("a", some "h2"), ("a", some "h3")]).modified := by
  decide

/-- C3 amended: when the remote listing has no repeated path (the origin
listing may still have repeats, which its dict construction collapses),
every path appears in at most one of the three output sets and at most once
within each set. -/
theorem claim3_amended (o r : List (String × Option String))
    (hr : (keysA r).Nodup) :
    (∀ p, ¬(p ∈ (compareManifests o r).originOnly ∧
        p ∈ (compareManifests o r).remoteOnly)) ∧
    (∀ p, ¬(p ∈ (compareManifests o r).originOnly ∧
        p ∈ (compareManifests o r).modified)) ∧
    (∀ p, ¬(p ∈ (compareManifests o r).remoteOnly ∧
        p ∈ (compareManifests o r).modified)) ∧
    (compareManifests o r).originOnly.Nodup ∧
    (compareManifests o r).remoteOnly.Nodup ∧
    (compareManifests o r).modified.Nodup := by
  have hnd := processRemote_nodup r (buildDict o) [] []
    (keysA_buildDict_nodup o) List.nodup_nil List.nodup_nil
  exact ⟨(compare_disjoint o r hr).1, (compare_disjoint o r hr).2.1,
    (compare_disjoint o r hr).2.2, hnd.1, hnd.2.1, hnd.2.2⟩

/-- Witness for C3 (amended): concrete instantiation at
`O = [a ↦ h1]`, `R = [a ↦ h2]`. -/
theorem claim3_witness :
    (keysA [("a", some "h2")]).Nodup ∧
    (∀ p, ¬(p ∈ (compareManifests [("a", some "h1")] [("a", some "h2")]).originOnly ∧
        p ∈ (compareManifests [("a", some "h1")] [("a", some "h2")]).remoteOnly)) ∧
    (∀ p, ¬(p ∈ (compareManifests [("a", some "h1")] [("a", some "h2")]).originOnly ∧
        p ∈ (compareManifests [("a", some "h1")] [("a", some "h2")]).modified)) ∧
    (∀ p, ¬(p ∈ (compareManifests [("a", some "h1")] [("a", some "h2")]).remoteOnly ∧
        p ∈ (compareManifests [("a", some "h1")] [("a", some "h2")]).modified)) ∧
    (compareManifests [("a", some "h1")] [("a", some "h2")]).originOnly.Nodup ∧
    (compareManifests [("a", some "h1")] [("a", some "h2")]).remoteOnly.Nodup ∧
    (compareManifests [("a", some "h1")] [("a", some "h2")]).modified.Nodup :=
  ⟨by decide, claim3_amended [("a", some "h1")] [("a", some "h2")] (by decide)⟩

/-- C4 counterexample: pre-reducing the remote listing
`[a ↦ h2, a ↦ h3]` to its last-wins map `[a ↦ h3]` changes the computed
classification (the raw run puts `a` in remote-only, the reduced run does
not), refuting last-wins for the remote listing. -/
theorem claim4_counterexample :
    compareManifests [("a", some "h1")] [("a", some "h2"), ("a", some "h3")] ≠
      compareManifests [("a", some "h1")]
        (buildDict [("a", some "h2"), ("a", some "h3")]) := by
  decide

/-- C4 amended: last-wins reduction is real only for the origin listing:
pre-reducing the origin listing to its last-wins map never changes the
classification, while the counterexample shows the remote listing is
consumed as a stream and duplicates there do change the result. -/
theorem claim4_amended (o r : List (String × Option String)) :
    compareManifests o r = compareManifests (buildDict o) r := by
  unfold compareManifests
  rw [buildDict_idem]

/-! ### Character-level parsing lemmas -/

theorem dropWhile_isWS_cons (c : Char) (l : List Char) (hc : isWS c = false) :
    (c :: l).dropWhile isWS = c :: l := by
  simp [List.dropWhile_cons, hc]

theorem takeWhile_nws_append (l r : List Char) (hl : NWS l) :
    (l ++ ' ' :: r).takeWhile (fun ch => !isWS ch) = l := by
  induction l with
  | nil =>
    have hws : isWS ' ' = true := by decide
    simp [List.takeWhile_cons, hws]
  | cons c cs ih =>
    have hc : isWS c = false := hl c (List.mem_cons_self c cs)
    have ih' := ih (fun d hd => hl d (List.mem_cons_of_mem c hd))
    simp [List.takeWhile_cons, hc, ih']

theorem dropWhile_nws_append (l r : List Char) (hl : NWS l) :
    (l ++ ' ' :: r).dropWhile (fun ch => !isWS ch) = ' ' :: r := by
  induction l with
  | nil =>
    have hws : isWS ' ' = true := by decide
    simp [List.dropWhile_cons, hws]
  | cons c cs ih =>
    have hc : isWS c = false := hl c (List.mem_cons_self c cs)
    have ih' := ih (fun d hd => hl d (List.mem_cons_of_mem c hd))
    simp [List.dropWhile_cons, hc, ih']

theorem takeWhile_nws_all (l : List Char) (hl : NWS l) :
    l.takeWhile (fun ch => !isWS ch) = l := by
  induction l with
  | nil => rfl
  | cons c cs ih =>
    have hc : isWS c = false := hl c (List.mem_cons_self c cs)
    have ih' := ih (fun d hd => hl d (List.mem_cons_of_mem c hd))
    simp [List.takeWhile_cons, hc, ih']

theorem dropWhile_nws_all (l : List Char) (hl : NWS l) :
    l.dropWhile (fun ch => !isWS ch) = [] := by
  induction l with
  | nil => rfl
  | cons c cs ih =>
    have hc : isWS c = false := hl c (List.mem_cons_self c cs)
    have ih' := ih (fun d hd => hl d (List.mem_cons_of_mem c hd))
    simp [List.dropWhile_cons, hc, ih']

theorem wsTokenize_single (b : List Char) (hb : NWS b) (hbne : b ≠ []) (n : Nat) :
    wsTokenize (n + 1) b = [b] := by
  cases b with
  | nil => exact absurd rfl hbne
  | cons c cs =>
    simp [wsTokenize, takeWhile_nws_all _ hb, dropWhile_nws_all _ hb]

theorem wsTokenize_pair (a b : List Char) (ha : NWS a) (hane : a ≠ [])
    (hb : NWS b) (hbne : b ≠ []) (n : Nat) :
    wsTokenize (n + 2) (a ++ ' ' :: b) = [a, b] := by
  cases a with
  | nil => exact absurd rfl hane
  | cons c cs =>
    rw [show n + 2 = (n + 1) + 1 from rfl, List.cons_append]
    simp only [wsTokenize]
    rw [← List.cons_append, takeWhile_nws_append _ _ ha, dropWhile_nws_append _ _ ha]
    have hsp : (' ' :: b).dropWhile isWS = b := by
      have hws : isWS ' ' = true := by decide
      rw [List.dropWhile_cons, if_pos hws]
      cases b with
      | nil => rfl
      | cons d ds => exact dropWhile_isWS_cons d ds (hb d (List.mem_cons_self d ds))
    rw [hsp, wsTokenize_single b hb hbne n]

theorem wsSplitMax_single (b : List Char) (hb : NWS b) (hbne : b ≠ []) (n : Nat) :
    wsSplitMax (n + 1) b = [b] := by
  cases b with
  | nil => exact absurd rfl hbne
  | cons c cs =>
    show wsTokenize (n + 1) ((c :: cs).dropWhile isWS) = [c :: cs]
    rw [dropWhile_isWS_cons c cs (hb c (List.mem_cons_self c cs))]
    exact wsTokenize_single (c :: cs) hb hbne n

theorem wsSplitMax_pair (a b : List Char) (ha : NWS a) (hane : a ≠ [])
    (hb : NWS b) (hbne : b ≠ []) :
    wsSplitMax 2 (a ++ ' ' :: b) = [a, b] := by
  cases a with
  | nil => exact absurd rfl hane
  | cons c cs =>
    show wsTokenize 2 (((c :: cs) ++ ' ' :: b).dropWhile isWS) = [c :: cs, b]
    rw [List.cons_append,
      dropWhile_isWS_cons c (cs ++ ' ' :: b) (ha c (List.mem_cons_self c cs)),
      ← List.cons_append]
    exact wsTokenize_pair (c :: cs) b ha hane hb hbne 0

theorem toList_ne_nil (s : String) (h : s ≠ "") : s.toList ≠ [] :=
  fun he => h ((toList_eq_nil_iff s).mp he)

theorem toList_append_space (a b : String) :
    (a ++ " " ++ b).toList = a.toList ++ ' ' :: b.toList := by
  rw [toList_append, toList_append, List.append_assoc]
  rfl

theorem pySplitMax_pair (c p : String) (hc : NWS c.toList) (hcne : c ≠ "")
    (hp : NWS p.toList) (hpne : p ≠ "") :
    pySplitMax (c ++ " " ++ p) 2 = [c, p] := by
  show (wsSplitMax 2 (c ++ " " ++ p).toList).map String.mk = [c, p]
  rw [toList_append_space,
    wsSplitMax_pair c.toList p.toList hc (toList_ne_nil c hcne) hp (toList_ne_nil p hpne)]
  simp

theorem pySplitMax_single (p : String) (hp : NWS p.toList) (hpne : p ≠ "") (n : Nat) :
    pySplitMax p (n + 1) = [p] := by
  show (wsSplitMax (n + 1) p.toList).map String.mk = [p]
  rw [wsSplitMax_single p.toList hp (toList_ne_nil p hpne) n]
  simp

theorem splitOnceChar_not_mem (sep : Char) (l : List Char) (h : sep ∉ l) :
    splitOnceChar sep l = (l, none) := by
  induction l with
  | nil => rfl
  | cons c cs ih =>
    have hc : ¬(c = sep) := fun he => h (List.mem_cons.mpr (Or.inl he.symm))
    have ih' := ih (fun hm => h (List.mem_cons_of_mem c hm))
    simp [splitOnceChar, hc, ih']

theorem splitOnceChar_append (sep : Char) (a b : List Char) (h : sep ∉ a) :
    splitOnceChar sep (a ++ sep :: b) = (a, some b) := by
  induction a with
  | nil => simp [splitOnceChar]
  | cons c cs ih =>
    have hc : ¬(c = sep) := fun he => h (List.mem_cons.mpr (Or.inl he.symm))
    have ih' := ih (fun hm => h (List.mem_cons_of_mem c hm))
    simp [splitOnceChar, hc, ih']

theorem splitSpace1_no_space (s : String) (h : ' ' ∉ s.toList) :
    splitSpace1 s = [s] := by
  unfold splitSpace1
  rw [splitOnceChar_not_mem ' ' s.toList h]
  simp

theorem splitSpace1_append (a b : String) (h : ' ' ∉ a.toList) :
    splitSpace1 (a ++ " " ++ b) = [a, b] := by
  unfold splitSpace1
  rw [toList_append_space, splitOnceChar_append ' ' a.toList b.toList h]
  simp

/-! ### strip lemmas -/

theorem stripChars_eq_self (l : List Char)
    (h1 : ∀ c, l.head? = some c → isWS c = false)
    (h2 : ∀ c, l.getLast? = some c → isWS c = false) :
    stripChars l = l := by
  have e1 : l.dropWhile isWS = l := by
    cases l with
    | nil => rfl
    | cons c cs => exact dropWhile_isWS_cons c cs (h1 c rfl)
  have e2 : l.reverse.dropWhile isWS = l.reverse := by
    cases hr : l.reverse with
    | nil => rfl
    | cons c cs =>
      have hc : l.getLast? = some c := by
        rw [List.getLast?_eq_head?_reverse, hr]
        rfl
      exact dropWhile_isWS_cons c cs (h2 c hc)
  unfold stripChars
  rw [e1, e2, List.reverse_reverse]

theorem pyStrip_eq_self (s : String)
    (h1 : ∀ c, s.toList.head? = some c → isWS c = false)
    (h2 : ∀ c, s.toList.getLast? = some c → isWS c = false) :
    pyStrip s = s := by
  unfold pyStrip
  rw [stripChars_eq_self s.toList h1 h2]
  exact mk_toList s

/-! ### Line and token helpers -/

theorem head?_mem_char (l : List Char) (c : Char) (h : l.head? = some c) :
    c ∈ l := by
  cases l with
  | nil => cases h
  | cons d ds =>
    simp only [List.head?_cons] at h
    have hdc : d = c := by injection h
    rw [← hdc]
    exact List.mem_cons_self d ds

theorem getLast?_mem_char (l : List Char) (c : Char) (h : l.getLast? = some c) :
    c ∈ l := by
  induction l with
  | nil => cases h
  | cons d ds ih =>
    cases ds with
    | nil =>
      have hdc : d = c := by simpa using h
      rw [← hdc]
      exact List.mem_cons_self d []
    | cons e es =>
      rw [List.getLast?_cons_cons] at h
      exact List.mem_cons_of_mem d (ih h)

theorem getLast?_cons_ne_none (e : Char) (es : List Char) :
    (e :: es).getLast? ≠ none := by
  induction es generalizing e with
  | nil => simp
  | cons f fs ih =>
    rw [List.getLast?_cons_cons]
    exact ih f

theorem getLast?_append_cons (a : List Char) (c : Char) (b : List Char)
    (hbne : b ≠ []) : (a ++ c :: b).getLast? = b.getLast? := by
  obtain ⟨e, es, hes⟩ := List.exists_cons_of_ne_nil hbne
  subst hes
  rw [List.getLast?_append, List.getLast?_cons_cons]
  cases hx : (e :: es).getLast? with
  | none => exact absurd hx (getLast?_cons_ne_none e es)
  | some x => rfl

theorem nws_not_mem (l : List Char) (hl : NWS l) (c : Char) (hc : isWS c = true) :
    c ∉ l := by
  intro hm
  rw [hl c hm] at hc
  exact Bool.noConfusion hc

theorem no_newline_sep_line (a b : List Char) (ha : NWS a) (hb : NWS b) :
    '\n' ∉ a ++ ' ' :: b := by
  intro hm
  rcases List.mem_append.mp hm with h | h
  · exact nws_not_mem a ha '\n' (by decide) h
  · rcases List.mem_cons.mp h with he | h2
    · exact absurd he (by decide)
    · exact nws_not_mem b hb '\n' (by decide) h2

theorem pyStrip_sep_line (a b : String) (ha : NWS a.toList) (hane : a ≠ "")
    (hb : NWS b.toList) (hbne : b ≠ "") :
    pyStrip (a ++ " " ++ b) = a ++ " " ++ b := by
  apply pyStrip_eq_self
  · intro c hc
    rw [toList_append_space] at hc
    obtain ⟨d, ds, hds⟩ := List.exists_cons_of_ne_nil (toList_ne_nil a hane)
    rw [hds, List.cons_append] at hc
    simp only [List.head?_cons] at hc
    have hdc : d = c := by injection hc
    rw [← hdc]
    exact ha d (by rw [hds]; exact List.mem_cons_self d ds)
  · intro c hc
    rw [toList_append_space,
      getLast?_append_cons a.toList ' ' b.toList (toList_ne_nil b hbne)] at hc
    exact hb c (getLast?_mem_char b.toList c hc)

theorem pyStrip_token (s : String) (hs : NWS s.toList) : pyStrip s = s := by
  apply pyStrip_eq_self
  · intro c hc
    exact hs c (head?_mem_char s.toList c hc)
  · intro c hc
    exact hs c (getLast?_mem_char s.toList c hc)

theorem append_ne_empty_left (a b : String) (ha : a ≠ "") : a ++ b ≠ "" := by
  intro h
  obtain ⟨d, ds, hds⟩ := List.exists_cons_of_ne_nil (toList_ne_nil a ha)
  have h2 := congrArg String.toList h
  rw [toList_append, hds] at h2
  exact List.noConfusion h2

theorem sep_line_ne_empty (a b : String) (hane : a ≠ "") :
    a ++ " " ++ b ≠ "" :=
  append_ne_empty_left (a ++ " ") b (append_ne_empty_left a " " hane)

theorem startsHash_append (a b : String) (hne : a ≠ "") :
    startsHash (a ++ b) = startsHash a := by
  obtain ⟨d, ds, hds⟩ := List.exists_cons_of_ne_nil (toList_ne_nil a hne)
  unfold startsHash
  rw [toList_append, hds]
  rfl

theorem some_getD_of_ne_none (o : Option String) (h : o ≠ none) :
    some (o.getD "") = o := by
  cases o with
  | none => exact absurd rfl h
  | some v => rfl

/-! ### splitLines / unlines -/

theorem splitLinesChars_append (l rest : List Char) :
    ∀ acc, '\n' ∉ l →
      splitLinesChars (l ++ '\n' :: rest) acc =
        (acc.reverse ++ l) :: splitLinesChars rest [] := by
  induction l with
  | nil =>
    intro acc _
    simp [splitLinesChars]
  | cons c cs ih =>
    intro acc h
    have hc : ¬(c = '\n') := fun he => h (List.mem_cons.mpr (Or.inl he.symm))
    have ih' := ih (c :: acc) (fun hm => h (List.mem_cons_of_mem c hm))
    simp [splitLinesChars, hc, ih']

theorem splitLines_unlines (ls : List String) (h : ∀ l ∈ ls, '\n' ∉ l.toList) :
    splitLines (unlines ls) = ls := by
  induction ls with
  | nil => rfl
  | cons l rest ih =>
    have htl : (unlines (l :: rest)).toList =
        l.toList ++ '\n' :: (unlines rest).toList := by
      show ((l ++ "\n") ++ unlines rest).toList = _
      rw [toList_append, toList_append, List.append_assoc]
      rfl
    rw [show splitLines (unlines (l :: rest)) =
        (splitLinesChars (unlines (l :: rest)).toList []).map String.mk from rfl]
    rw [htl, splitLinesChars_append l.toList (unlines rest).toList []
      (h l (List.mem_cons_self l rest))]
    simp only [List.reverse_nil, List.nil_append, List.map_cons, mk_toList]
    rw [show (splitLinesChars (unlines rest).toList []).map String.mk =
        splitLines (unlines rest) from rfl]
    rw [ih (fun x hx => h x (List.mem_cons_of_mem l hx))]

/-! ### nonempty_reader and colReaderAux -/

theorem nonempty_reader_eq_self (ls : List String)
    (h : ∀ l ∈ ls, pyStrip l = l ∧ l ≠ "") : nonempty_reader ls = ls := by
  induction ls with
  | nil => rfl
  | cons l rest ih =>
    obtain ⟨h1, h2⟩ := h l (List.mem_cons_self l rest)
    have ih' := ih (fun x hx => h x (List.mem_cons_of_mem l hx))
    simp [nonempty_reader, h1, h2, ih']

theorem colReaderAux_header (cols : List String) (l : String) (ls : List String)
    (h : startsHash l = true) :
    colReaderAux cols (l :: ls) = colReaderAux ((pySplit l).drop 1) ls := by
  simp [colReaderAux, h]

theorem colReaderAux_data (cols : List String) (l : String) (ls : List String)
    (h : startsHash l = false) :
    colReaderAux cols (l :: ls) =
      dictOfPairs (cols.zip (pySplitMax l cols.length)) :: colReaderAux cols ls := by
  simp [colReaderAux, h]

theorem dictOfPairs_two (k1 k2 : String) (v1 v2 : String) (hne : k1 ≠ k2) :
    dictOfPairs [(k1, v1), (k2, v2)] = [(k1, v1), (k2, v2)] := by
  simp [dictOfPairs, insertE, hne]

theorem dictOfPairs_one (k : String) (v : String) :
    dictOfPairs [(k, v)] = [(k, v)] := rfl

/-! ### Manifest round trip, checksum mode -/

theorem colReaderAux_md5_data (m : List (String × Option String))
    (hm : ∀ pc ∈ m, wfEntry true pc) :
    colReaderAux ["md5", "filename"] (m.map (manifestLine true)) =
      m.map (fun pc => [("md5", pc.2.getD ""), ("filename", pc.1)]) := by
  induction m with
  | nil => rfl
  | cons pc rest ih =>
    obtain ⟨hw1, hw2, hw3, hw4⟩ := hm pc (List.mem_cons_self pc rest)
    have ih' := ih (fun x hx => hm x (List.mem_cons_of_mem pc hx))
    have hline : manifestLine true pc = pc.2.getD "" ++ " " ++ pc.1 := rfl
    have hsh : startsHash (pc.2.getD "" ++ " " ++ pc.1) = false := by
      rw [startsHash_append (pc.2.getD "" ++ " ") pc.1
        (append_ne_empty_left (pc.2.getD "") " " hw3.1)]
      rw [startsHash_append (pc.2.getD "") " " hw3.1]
      exact hw4
    rw [List.map_cons, hline, colReaderAux_data _ _ _ hsh]
    rw [show (["md5", "filename"] : List String).length = 2 from rfl]
    rw [pySplitMax_pair (pc.2.getD "") pc.1 hw3.2 hw3.1 hw1.2 hw1.1]
    rw [show (["md5", "filename"] : List String).zip [pc.2.getD "", pc.1] =
        [("md5", pc.2.getD ""), ("filename", pc.1)] from rfl]
    rw [dictOfPairs_two "md5" "filename" (pc.2.getD "") pc.1 (by decide), ih']
    rfl

theorem entriesToPairs_md5 (m : List (String × Option String))
    (hm : ∀ pc ∈ m, wfEntry true pc) :
    entriesToPairs (m.map (fun pc => [("md5", pc.2.getD ""), ("filename", pc.1)])) =
      some m := by
  induction m with
  | nil => rfl
  | cons pc rest ih =>
    obtain ⟨hw1, hw2, hw3, hw4⟩ := hm pc (List.mem_cons_self pc rest)
    have ih' := ih (fun x hx => hm x (List.mem_cons_of_mem pc hx))
    have hfn : lookupE [("md5", pc.2.getD ""), ("filename", pc.1)] "filename" =
        some pc.1 := by
      simp [lookupE, show ("md5" : String) ≠ "filename" from by decide]
    have hmd : lookupE [("md5", pc.2.getD ""), ("filename", pc.1)] "md5" =
        some (pc.2.getD "") := by
      simp [lookupE]
    rw [List.map_cons, entriesToPairs, hfn, ih', hmd]
    rw [some_getD_of_ne_none pc.2 hw2]
    rfl

/-! ### Manifest round trip, path-only mode -/

theorem colReaderAux_path_data (m : List (String × Option String))
    (hm : ∀ pc ∈ m, wfEntry false pc) :
    colReaderAux ["filename"] (m.map (manifestLine false)) =
      m.map (fun pc => [("filename", pc.1)]) := by
  induction m with
  | nil => rfl
  | cons pc rest ih =>
    obtain ⟨hw1, hw2, hw3⟩ := hm pc (List.mem_cons_self pc rest)
    have ih' := ih (fun x hx => hm x (List.mem_cons_of_mem pc hx))
    have hline : manifestLine false pc = pc.1 := rfl
    rw [List.map_cons, hline, colReaderAux_data _ _ _ hw3]
    rw [show (["filename"] : List String).length = 1 from rfl]
    have hsp := pySplitMax_single pc.1 hw1.2 hw1.1 0
    rw [Nat.zero_add] at hsp
    rw [hsp]
    rw [show (["filename"] : List String).zip [pc.1] = [("filename", pc.1)] from rfl]
    rw [dictOfPairs_one "filename" pc.1, ih']
    rfl

theorem entriesToPairs_path (m : List (String × Option String))
    (hm : ∀ pc ∈ m, wfEntry false pc) :
    entriesToPairs (m.map (fun pc => [("filename", pc.1)])) = some m := by
  induction m with
  | nil => rfl
  | cons pc rest ih =>
    obtain ⟨hw1, hw2, hw3⟩ := hm pc (List.mem_cons_self pc rest)
    have ih' := ih (fun x hx => hm x (List.mem_cons_of_mem pc hx))
    have hfn : lookupE [("filename", pc.1)] "filename" = some pc.1 := by
      simp [lookupE]
    have hmd : lookupE [("filename", pc.1)] "md5" = none := by
      simp [lookupE, show ("filename" : String) ≠ "md5" from by decide]
    rw [List.map_cons, entriesToPairs, hfn, ih', hmd]
    show Option.map (fun rest => (pc.1, (none : Option String)) :: rest) (some rest) =
      some (pc :: rest)
    rw [← hw2]
    rfl

/-! ### Round trip assembly -/

theorem roundtrip_true (m : List (String × Option String))
    (hm : ∀ pc ∈ m, wfEntry true pc) :
    readManifestText (serializeManifest true m) = some m := by
  have hnl : ∀ l ∈ manifestLines true m, '\n' ∉ l.toList := by
    intro l hl
    rcases List.mem_cons.mp hl with rfl | hl2
    · decide
    · obtain ⟨pc, hpc, rfl⟩ := List.mem_map.mp hl2
      obtain ⟨hw1, hw2, hw3, hw4⟩ := hm pc hpc
      rw [show manifestLine true pc = pc.2.getD "" ++ " " ++ pc.1 from rfl,
        toList_append_space]
      exact no_newline_sep_line _ _ hw3.2 hw1.2
  have hstrip : ∀ l ∈ manifestLines true m, pyStrip l = l ∧ l ≠ "" := by
    intro l hl
    rcases List.mem_cons.mp hl with rfl | hl2
    · exact ⟨by decide, by decide⟩
    · obtain ⟨pc, hpc, rfl⟩ := List.mem_map.mp hl2
      obtain ⟨hw1, hw2, hw3, hw4⟩ := hm pc hpc
      exact ⟨pyStrip_sep_line _ _ hw3.2 hw3.1 hw1.2 hw1.1,
        sep_line_ne_empty _ _ hw3.1⟩
  show entriesToPairs (colReaderAux []
    (nonempty_reader (splitLines (unlines (manifestLines true m))))) = some m
  rw [splitLines_unlines _ hnl, nonempty_reader_eq_self _ hstrip]
  rw [show manifestLines true m =
    "# md5 filename" :: m.map (manifestLine true) from rfl]
  rw [colReaderAux_header [] "# md5 filename" _ (by decide)]
  rw [show (pySplit "# md5 filename").drop 1 = ["md5", "filename"] from by decide]
  rw [colReaderAux_md5_data m hm]
  exact entriesToPairs_md5 m hm

theorem roundtrip_false (m : List (String × Option String))
    (hm : ∀ pc ∈ m, wfEntry false pc) :
    readManifestText (serializeManifest false m) = some m := by
  have hnl : ∀ l ∈ manifestLines false m, '\n' ∉ l.toList := by
    intro l hl
    rcases List.mem_cons.mp hl with rfl | hl2
    · decide
    · obtain ⟨pc, hpc, rfl⟩ := List.mem_map.mp hl2
      obtain ⟨hw1, hw2, hw3⟩ := hm pc hpc
      rw [show manifestLine false pc = pc.1 from rfl]
      exact nws_not_mem pc.1.toList hw1.2 '\n' (by decide)
  have hstrip : ∀ l ∈ manifestLines false m, pyStrip l = l ∧ l ≠ "" := by
    intro l hl
    rcases List.mem_cons.mp hl with rfl | hl2
    · exact ⟨by decide, by decide⟩
    · obtain ⟨pc, hpc, rfl⟩ := List.mem_map.mp hl2
      obtain ⟨hw1, hw2, hw3⟩ := hm pc hpc
      exact ⟨pyStrip_token pc.1 hw1.2, hw1.1⟩
  show entriesToPairs (colReaderAux []
    (nonempty_reader (splitLines (unlines (manifestLines false m))))) = some m
  rw [splitLines_unlines _ hnl, nonempty_reader_eq_self _ hstrip]
  rw [show manifestLines false m = "# filename" :: m.map (manifestLine false) from rfl]
  rw [colReaderAux_header [] "# filename" _ (by decide)]
  rw [show (pySplit "# filename").drop 1 = ["filename"] from by decide]
  rw [colReaderAux_path_data m hm]
  exact entriesToPairs_path m hm

/-- C5: serializing a well-formed manifest (checksummed or checksum-free)
to the line-oriented text form and parsing it back yields exactly the
original entries: `parse (serialize M) = M`. -/
theorem claim5_roundtrip (md5 : Bool) (m : List (String × Option String))
    (hm : ∀ pc ∈ m, wfEntry md5 pc) :
    readManifestText (serializeManifest md5 m) = some m := by
  cases md5 with
  | true => exact roundtrip_true m hm
  | false => exact roundtrip_false m hm

/-- Witness for C5: round trip of a one-entry manifest, once with a
checksum and once without. -/
theorem claim5_witness :
    (∀ pc ∈ [("dir/file.txt", some "abc123")], wfEntry true pc) ∧
    (∀ pc ∈ [("dir/file.txt", (none : Option String))], wfEntry false pc) ∧
    readManifestText (serializeManifest true [("dir/file.txt", some "abc123")]) =
      some [("dir/file.txt", some "abc123")] ∧
    readManifestText (serializeManifest false [("dir/file.txt", none)]) =
      some [("dir/file.txt", none)] :=
  ⟨by decide, by decide,
    claim5_roundtrip true [("dir/file.txt", some "abc123")] (by decide),
    claim5_roundtrip false [("dir/file.txt", none)] (by decide)⟩

/-- C6: the parser is meant to give the last declared column the entire
remaining text of the line, but `col_reader` passes
`maxsplit=len(columns)` instead of `len(columns)-1`: a path containing
internal whitespace is truncated to its first token and the rest of the
line is dropped, while a whitespace-free path parses as specified. -/
theorem claim6_maxsplit_truncation :
    parseEntries "# md5 filename\nabc123 my dir/file.txt\n" =
      [[("md5", "abc123"), ("filename", "my")]] ∧
    parseEntries "# md5 filename\nabc123 dir/file.txt\n" =
      [[("md5", "abc123"), ("filename", "dir/file.txt")]] :=
  ⟨by decide, by decide⟩

/-- C7 counterexample: a data line with no preceding header does not parse
as a path-only entry. Parsing `"x"` yields an entry with no fields at all,
so projecting the filename (as `main_compare` does) raises `KeyError`:
the compare run fails instead of treating the line as a path. -/
theorem claim7_counterexample :
    readManifestText "x" = none ∧ main_compare "x" "# filename\ny\n" = none :=
  ⟨by decide, by decide⟩

/-- C7 amended: data lines before any header are parsed against the empty
schema, producing entries with no recognized fields — not path-only
entries — and any such data line makes the downstream compare fail with a
`KeyError`; in contrast, a header that declares only a `filename` column
(checksum column absent) never causes parse or compare to fail: every
entry simply gets `checksum = absent`. -/
theorem claim7_amended (ls : List String) (m1 m2 : List (String × Option String))
    (hls : ∀ l ∈ ls, startsHash l = false)
    (h1 : ∀ pc ∈ m1, wfEntry false pc) (h2 : ∀ pc ∈ m2, wfEntry false pc) :
    colReaderAux [] ls = ls.map (fun _ => ([] : Entry)) ∧
    (ls ≠ [] → entriesToPairs (colReaderAux [] ls) = none) ∧
    main_compare (serializeManifest false m1) (serializeManifest false m2) =
      some (compareManifests m1 m2) := by
  have hnoheader : colReaderAux [] ls = ls.map (fun _ => ([] : Entry)) := by
    induction ls with
    | nil => rfl
    | cons l rest ih =>
      rw [colReaderAux_data [] l rest (hls l (List.mem_cons_self l rest))]
      rw [ih (fun x hx => hls x (List.mem_cons_of_mem l hx))]
      rfl
  refine ⟨hnoheader, ?_, ?_⟩
  · intro hne
    rw [hnoheader]
    obtain ⟨l, rest, rfl⟩ := List.exists_cons_of_ne_nil hne
    rfl
  · unfold main_compare
    rw [roundtrip_false m1 h1, roundtrip_false m2 h2]

/-- Witness for C7 (amended): instantiated at the headerless stream
`["x"]` and the path-only manifests `[a]` and `[]`. -/
theorem claim7_witness :
    (∀ l ∈ ["x"], startsHash l = false) ∧
    (∀ pc ∈ [("a", (none : Option String))], wfEntry false pc) ∧
    (colReaderAux [] ["x"] = [[]] ∧
      (["x"] ≠ [] → entriesToPairs (colReaderAux [] ["x"]) = none) ∧
      main_compare (serializeManifest false [("a", none)])
          (serializeManifest false []) =
        some (compareManifests [("a", none)] [])) :=
  ⟨by decide, by decide,
    claim7_amended ["x"] [("a", none)] [] (by decide) (by decide) (by decide)⟩

/-! ### main_sync lemmas -/

theorem noTrailWS_spec (s : String) (h : noTrailWS s = true) :
    ∀ ch, s.toList.getLast? = some ch → isWS ch = false := by
  intro ch hch
  unfold noTrailWS at h
  rw [hch] at h
  have h3 : (!isWS ch) = true := h
  cases hib : isWS ch with
  | false => rfl
  | true =>
    rw [hib] at h3
    exact Bool.noConfusion h3

theorem pyStrip_status_line (a fn : String) (ha1 : a ≠ "") (ha2 : NWS a.toList)
    (hfn1 : fn ≠ "")
    (hfn2 : ∀ ch, fn.toList.getLast? = some ch → isWS ch = false) :
    pyStrip (a ++ " " ++ fn) = a ++ " " ++ fn := by
  apply pyStrip_eq_self
  · intro c hc
    rw [toList_append_space] at hc
    obtain ⟨d, ds, hds⟩ := List.exists_cons_of_ne_nil (toList_ne_nil a ha1)
    rw [hds, List.cons_append] at hc
    simp only [List.head?_cons] at hc
    have hdc : d = c := by injection hc
    rw [← hdc]
    exact ha2 d (by rw [hds]; exact List.mem_cons_self d ds)
  · intro c hc
    rw [toList_append_space,
      getLast?_append_cons _ ' ' _ (toList_ne_nil fn hfn1)] at hc
    exact hfn2 c hc

theorem main_sync_record (og rm : String) (f1 f2 f3 : Bool)
    (l status filename : String) (ls : List String)
    (hne : pyStrip l ≠ "")
    (hsplit : splitSpace1 (pyStrip l) = [status, filename]) :
    main_sync og rm f1 f2 f3 (l :: ls) =
      (main_sync og rm f1 f2 f3 ls).map (fun rest =>
        (if status = "O" then
          [if f1 then SyncAction.remove (pathJoin og filename)
           else SyncAction.copy (pathJoin og filename) (pathJoin rm filename)]
        else if status = "R" then
          [if f2 then SyncAction.copy (pathJoin rm filename) (pathJoin og filename)
           else SyncAction.remove (pathJoin rm filename)]
        else if status = "M" then
          [if f3 then SyncAction.copy (pathJoin rm filename) (pathJoin og filename)
           else SyncAction.copy (pathJoin og filename) (pathJoin rm filename)]
        else []) ++ rest) := by
  simp [main_sync, hne, hsplit]

theorem main_sync_error (og rm : String) (f1 f2 f3 : Bool)
    (l : String) (ls : List String)
    (hne : pyStrip l ≠ "")
    (hsplit : splitSpace1 (pyStrip l) = [pyStrip l]) :
    main_sync og rm f1 f2 f3 (l :: ls) = none := by
  simp [main_sync, hne, hsplit]

theorem statusStr_toList (k : DKind) :
    ∃ ch, (statusStr k).toList = [ch] ∧ isWS ch = false ∧ ch ≠ ' ' := by
  cases k with
  | o => exact ⟨'O', by decide, by decide, by decide⟩
  | r => exact ⟨'R', by decide, by decide, by decide⟩
  | m => exact ⟨'M', by decide, by decide, by decide⟩

theorem record_line_strip (k : DKind) (fn : String) (hfn1 : fn ≠ "")
    (hfn2 : noTrailWS fn = true) :
    pyStrip (statusStr k ++ " " ++ fn) = statusStr k ++ " " ++ fn := by
  obtain ⟨ch, hch, hws, _⟩ := statusStr_toList k
  apply pyStrip_status_line (statusStr k) fn ?_ ?_ hfn1 (noTrailWS_spec fn hfn2)
  · intro h
    rw [h] at hch
    exact List.noConfusion hch
  · intro c hc
    rw [hch] at hc
    rw [List.mem_singleton] at hc
    rw [hc]
    exact hws

theorem record_line_split (k : DKind) (fn : String) :
    splitSpace1 (statusStr k ++ " " ++ fn) = [statusStr k, fn] := by
  obtain ⟨ch, hch, _, hsp⟩ := statusStr_toList k
  apply splitSpace1_append
  rw [hch]
  simp only [List.mem_singleton]
  exact fun he => hsp he.symm

theorem record_line_ne (k : DKind) (fn : String) :
    statusStr k ++ " " ++ fn ≠ "" := by
  obtain ⟨ch, hch, _, _⟩ := statusStr_toList k
  apply sep_line_ne_empty
  intro h
  rw [h] at hch
  exact List.noConfusion hch

/-- C2: for every record sequence and every flag combination, `main_sync`
emits exactly one action per record, in input order, following the §4.3
decision table (`planTable`): origin-only copies origin→remote unless
`origin_remove` (then removes on origin), remote-only removes on remote
unless `remote_copy` (then copies remote→origin), modified copies
origin→remote unless `modified_download` (then copies remote→origin). -/
theorem claim2_plan (og rm : String) (f1 f2 f3 : Bool)
    (records : List (DKind × String))
    (h : ∀ pr ∈ records, pr.2 ≠ "" ∧ noTrailWS pr.2 = true) :
    main_sync og rm f1 f2 f3
        (records.map (fun pr => statusStr pr.1 ++ " " ++ pr.2)) =
      some (records.map (planTable og rm f1 f2 f3)) := by
  induction records with
  | nil => rfl
  | cons pr rest ih =>
    obtain ⟨k, fn⟩ := pr
    obtain ⟨h1, h2⟩ := h (k, fn) (List.mem_cons_self (k, fn) rest)
    have ih' := ih (fun x hx => h x (List.mem_cons_of_mem (k, fn) hx))
    rw [List.map_cons]
    have hstrip := record_line_strip k fn h1 h2
    have hne : pyStrip (statusStr k ++ " " ++ fn) ≠ "" := by
      rw [hstrip]
      exact record_line_ne k fn
    have hsplit : splitSpace1 (pyStrip (statusStr k ++ " " ++ fn)) =
        [statusStr k, fn] := by
      rw [hstrip]
      exact record_line_split k fn
    rw [main_sync_record og rm f1 f2 f3 _ (statusStr k) fn _ hne hsplit, ih',
      List.map_cons]
    cases k <;> simp [statusStr, planTable]

/-- Witness for C2: a three-record diff, one record of each kind, planned
with all flags false. -/
theorem claim2_witness :
    (∀ pr ∈ [(DKind.o, "a"), (DKind.r, "b"), (DKind.m, "c")],
      pr.2 ≠ "" ∧ noTrailWS pr.2 = true) ∧
    main_sync "o" "r" false false false
        ([(DKind.o, "a"), (DKind.r, "b"), (DKind.m, "c")].map
          (fun pr => statusStr pr.1 ++ " " ++ pr.2)) =
      some ([(DKind.o, "a"), (DKind.r, "b"), (DKind.m, "c")].map
        (planTable "o" "r" false false false)) :=
  ⟨by decide,
    claim2_plan "o" "r" false false false
      [(DKind.o, "a"), (DKind.r, "b"), (DKind.m, "c")] (by decide)⟩

/-- C8 counterexample: the diff line `"X foo"` is malformed (status outside
{O, R, M}) yet `main_sync` completes successfully with no action and no
error — the line is silently dropped, contradicting the claim that every
malformed line is a fatal input error. -/
theorem claim8_counterexample :
    main_sync "origin" "remote" false false false ["X foo"] = some [] := by
  decide

/-- C8 amended: a diff line that cannot be split into two fields (no space
at all) does abort the run with an uncaught `ValueError`; but a two-field
line whose status is outside {O, R, M} is silently skipped, producing no
action and no error. Fatality thus holds only for the unsplittable case. -/
theorem claim8_amended (og rm : String) (f1 f2 f3 : Bool) (ls : List String)
    (l s fn : String)
    (hl1 : pyStrip l ≠ "") (hl2 : ' ' ∉ (pyStrip l).toList)
    (hs1 : s ≠ "") (hs2 : NWS s.toList)
    (hsO : s ≠ "O") (hsR : s ≠ "R") (hsM : s ≠ "M")
    (hfn1 : fn ≠ "") (hfn2 : noTrailWS fn = true) :
    main_sync og rm f1 f2 f3 (l :: ls) = none ∧
    main_sync og rm f1 f2 f3 ((s ++ " " ++ fn) :: ls) =
      main_sync og rm f1 f2 f3 ls := by
  constructor
  · exact main_sync_error og rm f1 f2 f3 l ls hl1 (splitSpace1_no_space _ hl2)
  · have hstrip : pyStrip (s ++ " " ++ fn) = s ++ " " ++ fn :=
      pyStrip_status_line s fn hs1 hs2 hfn1 (noTrailWS_spec fn hfn2)
    have hne : pyStrip (s ++ " " ++ fn) ≠ "" := by
      rw [hstrip]
      exact sep_line_ne_empty s fn hs1
    have hsplit : splitSpace1 (pyStrip (s ++ " " ++ fn)) = [s, fn] := by
      rw [hstrip]
      exact splitSpace1_append s fn (nws_not_mem s.toList hs2 ' ' (by decide))
    rw [main_sync_record og rm f1 f2 f3 _ s fn ls hne hsplit]
    rw [if_neg hsO, if_neg hsR, if_neg hsM]
    cases main_sync og rm f1 f2 f3 ls with
    | none => rfl
    | some v => rfl

/-- Witness for C8 (amended): the spaceless line `"Xfoo"` aborts the run,
while the unknown-status line `"X foo"` is skipped. -/
theorem claim8_witness :
    (pyStrip "Xfoo" ≠ "" ∧ ' ' ∉ (pyStrip "Xfoo").toList ∧
      ("X" : String) ≠ "" ∧ NWS ("X" : String).toList ∧
      ("X" : String) ≠ "O" ∧ ("X" : String) ≠ "R" ∧ ("X" : String) ≠ "M" ∧
      ("foo" : String) ≠ "" ∧ noTrailWS "foo" = true) ∧
    main_sync "o" "r" true true true ["Xfoo"] = none ∧
    main_sync "o" "r" true true true [("X" : String) ++ " " ++ "foo"] =
      main_sync "o" "r" true true true [] :=
  ⟨by decide,
    (claim8_amended "o" "r" true true true [] "Xfoo" "X" "foo" (by decide)
      (by decide) (by decide) (by decide) (by decide) (by decide) (by decide)
      (by decide) (by decide)).1,
    (claim8_amended "o" "r" true true true [] "Xfoo" "X" "foo" (by decide)
      (by decide) (by decide) (by decide) (by decide) (by decide) (by decide)
      (by decide) (by decide)).2⟩

/-- C9: header lines are recognized anywhere in the stream — every `#` line
replaces the active column schema for the following data lines (so one
stream can switch schemas mid-file), and a data line read before any header
is parsed against the empty schema, producing an entry with no recognized
fields at all. -/
theorem claim9_header_switch (cols : List String) (h l : String)
    (ls ls2 : List String)
    (hh : startsHash h = true) (hl : startsHash l = false) :
    colReaderAux cols (h :: ls) = colReaderAux ((pySplit h).drop 1) ls ∧
    colReaderAux [] (l :: ls2) = ([] : Entry) :: colReaderAux [] ls2 ∧
    parseEntries "# filename\na\n# md5 filename\nh a\n" =
      [[("filename", "a")], [("md5", "h"), ("filename", "a")]] := by
  refine ⟨colReaderAux_header cols h ls hh, ?_, by decide⟩
  rw [colReaderAux_data [] l ls2 hl]
  rfl

/-- Witness for C9: a mid-stream `# md5 filename` header under an active
`filename` schema, and a headerless data line. -/
theorem claim9_witness :
    startsHash "# md5 filename" = true ∧ startsHash "a" = false ∧
    (colReaderAux ["filename"] ["# md5 filename", "h a"] =
        colReaderAux ((pySplit "# md5 filename").drop 1) ["h a"] ∧
      colReaderAux [] ["a"] = ([] : Entry) :: colReaderAux [] [] ∧
      parseEntries "# filename\na\n# md5 filename\nh a\n" =
        [[("filename", "a")], [("md5", "h"), ("filename", "a")]]) :=
  ⟨by decide, by decide,
    claim9_header_switch ["filename"] "# md5 filename" "a" ["h a"] []
      (by decide) (by decide)⟩

/-! ### Diff output grouping -/

theorem tagged_ne (s t a b : String) (c d : Char)
    (hs : s.toList = [c, ' ']) (ht : t.toList = [d, ' ']) (hcd : c ≠ d) :
    s ++ a ≠ t ++ b := by
  intro h
  have h2 := congrArg String.toList h
  rw [toList_append, toList_append, hs, ht] at h2
  simp only [List.cons_append, List.nil_append] at h2
  have h3 : c = d := by
    injection h2 with h3 h4
  exact hcd h3

theorem diffLines_grouping (res : CompareResult) :
    ∃ og rg mg : List String,
      diffLines res =
        og ++ (if og = [] then [] else [""]) ++ rg ++
          (if rg = [] then [] else [""]) ++ mg ∧
      (∀ l ∈ og, ∃ fn ∈ res.originOnly, l = "O " ++ fn) ∧
      (∀ l ∈ rg, ∃ fn ∈ res.remoteOnly, l = "R " ++ fn) ∧
      (∀ l ∈ mg, ∃ fn ∈ res.modified, l = "M " ++ fn) ∧
      (og = [] ↔ res.originOnly = []) ∧
      (rg = [] ↔ res.remoteOnly = []) ∧
      (mg = [] ↔ res.modified = []) ∧
      (∀ l ∈ og, l ∉ rg ∧ l ∉ mg ∧ l ≠ "") ∧
      (∀ l ∈ rg, l ∉ mg ∧ l ≠ "") ∧
      (∀ l ∈ mg, l ≠ "") := by
  refine ⟨res.originOnly.map (fun fn => "O " ++ fn),
    res.remoteOnly.map (fun fn => "R " ++ fn),
    res.modified.map (fun fn => "M " ++ fn), ?_, ?_, ?_, ?_,
    List.map_eq_nil_iff, List.map_eq_nil_iff, List.map_eq_nil_iff, ?_, ?_, ?_⟩
  · by_cases h1 : res.originOnly = [] <;> by_cases h2 : res.remoteOnly = [] <;>
      simp [diffLines, h1, h2]
  · intro l hl
    rw [List.mem_map] at hl
    obtain ⟨fn, hfn, rfl⟩ := hl
    exact ⟨fn, hfn, rfl⟩
  · intro l hl
    rw [List.mem_map] at hl
    obtain ⟨fn, hfn, rfl⟩ := hl
    exact ⟨fn, hfn, rfl⟩
  · intro l hl
    rw [List.mem_map] at hl
    obtain ⟨fn, hfn, rfl⟩ := hl
    exact ⟨fn, hfn, rfl⟩
  · intro l hl
    rw [List.mem_map] at hl
    obtain ⟨fn, hfn, rfl⟩ := hl
    refine ⟨?_, ?_, ?_⟩
    · intro hmem
      rw [List.mem_map] at hmem
      obtain ⟨fn2, _, heq⟩ := hmem
      exact tagged_ne "R " "O " fn2 fn 'R' 'O' (by decide) (by decide)
        (by decide) heq
    · intro hmem
      rw [List.mem_map] at hmem
      obtain ⟨fn2, _, heq⟩ := hmem
      exact tagged_ne "M " "O " fn2 fn 'M' 'O' (by decide) (by decide)
        (by decide) heq
    · exact append_ne_empty_left "O " fn (by decide)
  · intro l hl
    rw [List.mem_map] at hl
    obtain ⟨fn, hfn, rfl⟩ := hl
    refine ⟨?_, ?_⟩
    · intro hmem
      rw [List.mem_map] at hmem
      obtain ⟨fn2, _, heq⟩ := hmem
      exact tagged_ne "M " "R " fn2 fn 'M' 'R' (by decide) (by decide)
        (by decide) heq
    · exact append_ne_empty_left "R " fn (by decide)
  · intro l hl
    rw [List.mem_map] at hl
    obtain ⟨fn, hfn, rfl⟩ := hl
    exact append_ne_empty_left "M " fn (by decide)

/-- C10: the serialized diff output of the compare run always groups its
records in the fixed order `O` then `R` then `M` (an `O` line can never
occur in the `R` or `M` segment and so on), with exactly one blank
separator line after the `O` group and after the `R` group precisely when
that group is non-empty. -/
theorem claim10_grouping (o r : List (String × Option String)) :
    ∃ og rg mg : List String,
      diffLines (compareManifests o r) =
        og ++ (if og = [] then [] else [""]) ++ rg ++
          (if rg = [] then [] else [""]) ++ mg ∧
      (∀ l ∈ og, ∃ fn ∈ (compareManifests o r).originOnly, l = "O " ++ fn) ∧
      (∀ l ∈ rg, ∃ fn ∈ (compareManifests o r).remoteOnly, l = "R " ++ fn) ∧
      (∀ l ∈ mg, ∃ fn ∈ (compareManifests o r).modified, l = "M " ++ fn) ∧
      (og = [] ↔ (compareManifests o r).originOnly = []) ∧
      (rg = [] ↔ (compareManifests o r).remoteOnly = []) ∧
      (mg = [] ↔ (compareManifests o r).modified = []) ∧
      (∀ l ∈ og, l ∉ rg ∧ l ∉ mg ∧ l ≠ "") ∧
      (∀ l ∈ rg, l ∉ mg ∧ l ≠ "") ∧
      (∀ l ∈ mg, l ≠ "") :=
  diffLines_grouping (compareManifests o r)

end Ssync
